import Mathlib

/-!
Verification of the quantifier operations of the quantor library.

The library evaluates logical quantifier checks (universal, existential,
counting, pairwise, nested) over finite sequences and returns either
success or a failure descriptor carrying the originating quantifier kind
and positional diagnostics.

Sequences are embedded as lists, predicates as Bool-valued functions, and
the Result type as Except over the failure-descriptor enum.  Each
definition below mirrors one function of the source (error.rs,
quantifiers/basic.rs, quantifiers/structured.rs, quantifiers/nested.rs,
quantifiers/selection.rs); loops become structural recursions carrying the
same counters the source carries.
-/

namespace Quantor

universe u v

variable {α : Type u} {β : Type v}

/-- Embedding of the QuantorKind enum of error.rs: the closed tag naming
the operation that produced a failure. -/
inductive QuantorKind where
  | Forall
  | Exists
  | None
  | ExactlyOne
  | ExactlyN
  | AllEqual
  | Pairwise
  | ForAllExists
  | ExistsForAll
  | Custom
deriving DecidableEq, Repr

/-- Embedding of the QuantorError enum of error.rs: the failure
descriptors returned by the fallible quantifier functions.  Indices are
usize in the source, embedded as Nat. -/
inductive QuantorError where
  | PredicateFailed (kind : QuantorKind) (index : Nat)
  | EmptyInput (kind : QuantorKind)
  | NoMatch (kind : QuantorKind)
  | UnexpectedMatch (kind : QuantorKind) (index : Nat)
  | NotAllEqual (kind : QuantorKind) (index : Nat)
  | PairwiseFailed (kind : QuantorKind) (index : Nat)
  | ForAllExistsFailed (kind : QuantorKind) (outer_index : Nat)
  | ExistsForAllFailed (kind : QuantorKind) (outer_index : Nat)
  | ExactlyNFailed (kind : QuantorKind) (found : Nat) (expected : Nat)
  | Custom (msg : String)
deriving DecidableEq, Repr

/-- Embedding of the kind method of error.rs (lines 271-284).  The source
matches on the variant and returns a hardcoded kind for every variant
except EmptyInput, where it returns the stored field; this mapping is
reproduced verbatim. -/
def QuantorError.kind : QuantorError → QuantorKind
  | .PredicateFailed _ _ => .Forall
  | .EmptyInput k => k
  | .NoMatch _ => .Exists
  | .UnexpectedMatch _ _ => .None
  | .NotAllEqual _ _ => .AllEqual
  | .PairwiseFailed _ _ => .Pairwise
  | .ForAllExistsFailed _ _ => .ForAllExists
  | .ExistsForAllFailed _ _ => .ExistsForAll
  | .ExactlyNFailed _ _ _ => .ExactlyN
  | .Custom _ => .Custom

/-- Embedding of QuantorResultExt.failing_index of error.rs: extracts the
index from PredicateFailed, UnexpectedMatch, PairwiseFailed and the outer
index from ForAllExistsFailed; every other case yields nothing. -/
def failing_index : Except QuantorError Unit → Option Nat
  | .error (.PredicateFailed _ index) => Option.some index
  | .error (.UnexpectedMatch _ index) => Option.some index
  | .error (.PairwiseFailed _ index) => Option.some index
  | .error (.ForAllExistsFailed _ outer_index) => Option.some outer_index
  | _ => Option.none

/-- Embedding of QuantorResultExt.match_count of error.rs: extracts the
found count from ExactlyNFailed; every other case yields nothing. -/
def match_count : Except QuantorError Unit → Option Nat
  | .error (.ExactlyNFailed _ found _) => Option.some found
  | _ => Option.none

/-- Loop of the forall function of basic.rs: enumerated iteration, erring
with the current index on the first element failing the predicate. -/
def forallLoop (pred : α → Bool) : Nat → List α → Except QuantorError Unit
  | _, [] => .ok ()
  | i, item :: rest =>
    if !pred item then .error (.PredicateFailed .Forall i)
    else forallLoop pred (i + 1) rest

/-- Embedding of the forall function of basic.rs (the source name is a
Lean keyword, hence the trailing apostrophe). -/
def forall' (iter : List α) (pred : α → Bool) : Except QuantorError Unit :=
  forallLoop pred 0 iter

/-- Embedding of the exists function of basic.rs (the source name is a
Lean keyword, hence the trailing apostrophe). -/
def exists' : List α → (α → Bool) → Except QuantorError Unit
  | [], _ => .error (.NoMatch .Exists)
  | item :: rest, pred => if pred item then .ok () else exists' rest pred

/-- Loop of the none function of basic.rs: enumerated iteration, erring
with the current index on the first element satisfying the predicate. -/
def noneLoop (pred : α → Bool) : Nat → List α → Except QuantorError Unit
  | _, [] => .ok ()
  | index, item :: rest =>
    if pred item then .error (.UnexpectedMatch .None index)
    else noneLoop pred (index + 1) rest

/-- Embedding of the none function of basic.rs. -/
def none (iter : List α) (pred : α → Bool) : Except QuantorError Unit :=
  noneLoop pred 0 iter

/-- Loop of the exactly_one function of basic.rs: carries the match count
and the enumeration index; errs on a second match, and at end of input
yields success exactly when one match was seen. -/
def exactlyOneLoop (pred : α → Bool) : Nat → Nat → List α → Except QuantorError Unit
  | matched, _, [] =>
    if matched == 1 then .ok ()
    else .error (.PredicateFailed .ExactlyOne 0)
  | matched, index, item :: rest =>
    if pred item then
      let m := matched + 1
      if m > 1 then .error (.UnexpectedMatch .ExactlyOne index)
      else exactlyOneLoop pred m (index + 1) rest
    else exactlyOneLoop pred matched (index + 1) rest

/-- Embedding of the exactly_one function of basic.rs: the peek test for
empty input, then the counting loop over the whole sequence. -/
def exactly_one (iter : List α) (pred : α → Bool) : Except QuantorError Unit :=
  match iter with
  | [] => .error (.EmptyInput .ExactlyOne)
  | item :: rest => exactlyOneLoop pred 0 0 (item :: rest)

/-- Loop of the all_equal function of basic.rs: iterates the tail with an
enumeration index starting at 0 and stores index + 1 on the first element
differing from the head. -/
def allEqualLoop [DecidableEq α] (first : α) : Nat → List α → Except QuantorError Unit
  | _, [] => .ok ()
  | i, item :: rest =>
    if item ≠ first then .error (.NotAllEqual .AllEqual (i + 1))
    else allEqualLoop first (i + 1) rest

/-- Embedding of the all_equal function of basic.rs. -/
def all_equal [DecidableEq α] (iter : List α) : Except QuantorError Unit :=
  match iter with
  | [] => .ok ()
  | first :: rest => allEqualLoop first 0 rest

/-- Embedding of the exactly_n function of basic.rs: counts every match
(filter then count, no short-circuit) and compares with n. -/
def exactly_n (iter : List α) (n : Nat) (pred : α → Bool) : Except QuantorError Unit :=
  let found := (iter.filter pred).length
  if found == n then .ok ()
  else .error (.ExactlyNFailed .ExactlyN found n)

/-- Loop of the pairwise function of structured.rs: carries the previous
element and the enumeration index over the tail; the index stored on
failure counts the pairs already advanced, naming the failing pair's
second element's position minus one.  The construction site in the source
omits the kind field that the enum of error.rs declares (the spec notes
duplicated revisions of error.rs); it is filled here with Pairwise, the
kind the kind method reports for this variant. -/
def pairwiseLoop (pred : α → α → Bool) : α → Nat → List α → Except QuantorError Unit
  | _, _, [] => .ok ()
  | prev, i, curr :: rest =>
    if !pred prev curr then .error (.PairwiseFailed .Pairwise i)
    else pairwiseLoop pred curr (i + 1) rest

/-- Embedding of the pairwise function of structured.rs. -/
def pairwise (iter : List α) (pred : α → α → Bool) : Except QuantorError Unit :=
  match iter with
  | [] => .ok ()
  | prev :: rest => pairwiseLoop pred prev 0 rest

/-- Inner loop of the forallexists function of nested.rs: scans the
buffered right-hand sequence for a partner, short-circuiting on the first
match. -/
def existsInner (pred : α → β → Bool) (a : α) : List β → Bool
  | [] => false
  | b :: bs => if pred a b then true else existsInner pred a bs

/-- Outer loop of the forallexists function of nested.rs: enumerated
iteration over the left-hand sequence, erring with the current outer
index on the first element without a partner.  The construction site in
the source omits the kind field (see the pairwise loop note); it is
filled with ForAllExists. -/
def forallexistsLoop (pred : α → β → Bool) (bs : List β) :
    Nat → List α → Except QuantorError Unit
  | _, [] => .ok ()
  | outer_index, a :: rest =>
    if existsInner pred a bs then forallexistsLoop pred bs (outer_index + 1) rest
    else .error (.ForAllExistsFailed .ForAllExists outer_index)

/-- Embedding of the forallexists function of nested.rs. -/
def forallexists (a : List α) (b : List β) (pred : α → β → Bool) :
    Except QuantorError Unit :=
  forallexistsLoop pred b 0 a

/-- Inner loop of the existsforall function of nested.rs: checks the
buffered right-hand sequence universally, short-circuiting on the first
failure. -/
def forallInner (pred : α → β → Bool) (a : α) : List β → Bool
  | [] => true
  | b :: bs => if !pred a b then false else forallInner pred a bs

/-- Outer loop of the existsforall function of nested.rs: carries the
optional index of the first failing left element and the enumeration
index; succeeds on the first universally matching element, and at end of
input errs with the recorded first index, defaulting to 0.  The
construction site in the source omits the kind field (see the pairwise
loop note); it is filled with ExistsForAll. -/
def existsforallLoop (pred : α → β → Bool) (bs : List β) :
    Option Nat → Nat → List α → Except QuantorError Unit
  | firstIdx, _, [] =>
    .error (.ExistsForAllFailed .ExistsForAll (firstIdx.getD 0))
  | firstIdx, index, a :: rest =>
    if forallInner pred a bs then .ok ()
    else
      match firstIdx with
      | Option.none => existsforallLoop pred bs (Option.some index) (index + 1) rest
      | Option.some j => existsforallLoop pred bs (Option.some j) (index + 1) rest

/-- Embedding of the existsforall function of nested.rs. -/
def existsforall (a : List α) (b : List β) (pred : α → β → Bool) :
    Except QuantorError Unit :=
  existsforallLoop pred b Option.none 0 a

/-- Embedding of the select_where function of selection.rs: filter,
preserving order and duplicates. -/
def select_where (iter : List α) (pred : α → Bool) : List α :=
  iter.filter pred

/-- Loop of the select_unique function of selection.rs: carries the set
of already seen values (the HashSet of the source, embedded as a list
queried by membership) and the accumulated result, appending each fresh
match at the back. -/
def selectUniqueLoop [DecidableEq α] (pred : α → Bool) :
    List α → List α → List α → List α
  | _, result, [] => result
  | uniques, result, item :: rest =>
    if pred item then
      if item ∈ uniques then selectUniqueLoop pred uniques result rest
      else selectUniqueLoop pred (item :: uniques) (result ++ [item]) rest
    else selectUniqueLoop pred uniques result rest

/-- Embedding of the select_unique function of selection.rs. -/
def select_unique [DecidableEq α] (iter : List α) (pred : α → Bool) : List α :=
  selectUniqueLoop pred [] [] iter

/-- Modelled from the claim's words for comparison with select_unique:
removal of every later duplicate of an already-seen value, keeping first
occurrences, threaded through an accumulator of seen values. -/
def dedupKeepFirstAux [DecidableEq α] (seen : List α) : List α → List α
  | [] => []
  | x :: xs =>
    if x ∈ seen then dedupKeepFirstAux seen xs
    else x :: dedupKeepFirstAux (x :: seen) xs

/-- Modelled from the claim's words: drop every later duplicate of an
already-seen value, keeping the first occurrence. -/
def dedupKeepFirst [DecidableEq α] (xs : List α) : List α :=
  dedupKeepFirstAux [] xs

end Quantor

namespace Quantor

/-- Lemma: the forall loop succeeds exactly when every remaining element
satisfies the predicate, for any starting index. -/
theorem forallLoop_ok_iff (pred : α → Bool) (i : Nat) (xs : List α) :
    forallLoop pred i xs = .ok () ↔ ∀ x ∈ xs, pred x = true := by
  induction xs generalizing i with
  | nil => simp [forallLoop]
  | cons x rest ih =>
    by_cases h : pred x
    · simp [forallLoop, h, ih]
    · simp [forallLoop, h]

/-- Lemma: when the element at relative position k is the first failing
one, the forall loop started at index i errs with index i + k. -/
theorem forallLoop_first_fail (pred : α → Bool) (xs : List α) :
    ∀ (i k : Nat) (hk : k < xs.length), pred (xs.get ⟨k, hk⟩) = false →
    (∀ x ∈ xs.take k, pred x = true) →
    forallLoop pred i xs = .error (.PredicateFailed .Forall (i + k)) := by
  induction xs with
  | nil => intro i k hk; exact absurd hk (by simp)
  | cons x rest ih =>
    intro i k hk hfail hbefore
    cases k with
    | zero =>
      simp only [List.get] at hfail
      simp [forallLoop, hfail]
    | succ k =>
      have hx : pred x = true := hbefore x (by simp [List.take_succ_cons])
      have hrec := ih (i + 1) k (by simpa using hk) (by simpa using hfail)
        (fun y hy => hbefore y (by simp [List.take_succ_cons, hy]))
      simp only [forallLoop, hx, Bool.not_true, Bool.false_eq_true, if_false]
      rw [show i + (k + 1) = i + 1 + k by omega]
      exact hrec

/-- C1: forall succeeds iff every element of the sequence satisfies the
predicate (vacuously on the empty sequence), and when some element fails,
it errs with PredicateFailed of kind Forall carrying the zero-based
position of the first element on which the predicate is false. -/
theorem forall_correct (xs : List α) (pred : α → Bool) :
    (forall' xs pred = .ok () ↔ ∀ x ∈ xs, pred x = true) ∧
    (∀ (k : Nat) (hk : k < xs.length), pred (xs.get ⟨k, hk⟩) = false →
      (∀ x ∈ xs.take k, pred x = true) →
      forall' xs pred = .error (.PredicateFailed .Forall k)) := by
  constructor
  · exact forallLoop_ok_iff pred 0 xs
  · intro k hk hfail hbefore
    simpa using forallLoop_first_fail pred xs 0 k hk hfail hbefore

/-- Witness for C1 at concrete inputs: all even succeeds; the first odd
element at position 1 is reported. -/
theorem forall_correct_witness :
    forall' [0, 2, 4, 6] (fun x => x % 2 == 0) = .ok () ∧
    forall' [0, 1, 2, 4, 6] (fun x => x % 2 == 0) =
      .error (.PredicateFailed .Forall 1) := by
  constructor
  · exact (forall_correct [0, 2, 4, 6] (fun x => x % 2 == 0)).1.mpr (by decide)
  · exact (forall_correct [0, 1, 2, 4, 6] (fun x => x % 2 == 0)).2 1
      (by decide) (by decide) (by decide)

/-- Lemma: exists succeeds exactly when some element satisfies the
predicate. -/
theorem exists_ok_iff (xs : List α) (pred : α → Bool) :
    exists' xs pred = .ok () ↔ ∃ x ∈ xs, pred x = true := by
  induction xs with
  | nil => simp [exists']
  | cons x rest ih =>
    by_cases h : pred x
    · simp [exists', h]
    · simp [exists', h, ih]

/-- Lemma: the none loop succeeds exactly when no remaining element
satisfies the predicate, for any starting index. -/
theorem noneLoop_ok_iff (pred : α → Bool) (i : Nat) (xs : List α) :
    noneLoop pred i xs = .ok () ↔ ∀ x ∈ xs, pred x = false := by
  induction xs generalizing i with
  | nil => simp [noneLoop]
  | cons x rest ih =>
    by_cases h : pred x
    · simp [noneLoop, h]
    · simp [noneLoop, h, ih]

/-- Lemma: when the element at relative position k is the first matching
one, the none loop started at index i errs with index i + k. -/
theorem noneLoop_first_match (pred : α → Bool) (xs : List α) :
    ∀ (i k : Nat) (hk : k < xs.length), pred (xs.get ⟨k, hk⟩) = true →
    (∀ x ∈ xs.take k, pred x = false) →
    noneLoop pred i xs = .error (.UnexpectedMatch .None (i + k)) := by
  induction xs with
  | nil => intro i k hk; exact absurd hk (by simp)
  | cons x rest ih =>
    intro i k hk hmatch hbefore
    cases k with
    | zero =>
      simp only [List.get] at hmatch
      simp [noneLoop, hmatch]
    | succ k =>
      have hx : pred x = false := hbefore x (by simp [List.take_succ_cons])
      have hrec := ih (i + 1) k (by simpa using hk) (by simpa using hmatch)
        (fun y hy => hbefore y (by simp [List.take_succ_cons, hy]))
      simp only [noneLoop, hx, Bool.false_eq_true, if_false]
      rw [show i + (k + 1) = i + 1 + k by omega]
      exact hrec

/-- C9: none succeeds iff exists fails (duality); equivalently, none
succeeds exactly when no element satisfies the predicate, and on the
first matching element it errs with UnexpectedMatch of kind None carrying
that element's index. -/
theorem none_correct (xs : List α) (pred : α → Bool) :
    (none xs pred = .ok () ↔ exists' xs pred ≠ .ok ()) ∧
    (none xs pred = .ok () ↔ ∀ x ∈ xs, pred x = false) ∧
    (∀ (k : Nat) (hk : k < xs.length), pred (xs.get ⟨k, hk⟩) = true →
      (∀ x ∈ xs.take k, pred x = false) →
      none xs pred = .error (.UnexpectedMatch .None k)) := by
  have h1 : none xs pred = .ok () ↔ ∀ x ∈ xs, pred x = false :=
    noneLoop_ok_iff pred 0 xs
  refine ⟨?_, h1, ?_⟩
  · rw [h1, Ne, exists_ok_iff]
    constructor
    · rintro h ⟨x, hx, hpx⟩
      rw [h x hx] at hpx
      cases hpx
    · intro h x hx
      cases hp : pred x
      · rfl
      · exact absurd ⟨x, hx, hp⟩ h
  · intro k hk hmatch hbefore
    simpa using noneLoop_first_match pred xs 0 k hk hmatch hbefore

/-- Witness for C9 at concrete inputs: all odd succeeds for none and
fails for exists; the matching element at position 4 is reported. -/
theorem none_correct_witness :
    none [1, 3, 5, 7] (fun x => x % 2 == 0) = .ok () ∧
    none [1, 3, 5, 7, 0] (fun x => x % 2 == 0) =
      .error (.UnexpectedMatch .None 4) ∧
    exists' [1, 3, 5, 7] (fun x => x % 2 == 0) ≠ .ok () := by
  have hok : none [1, 3, 5, 7] (fun x => x % 2 == 0) = .ok () :=
    (none_correct [1, 3, 5, 7] (fun x => x % 2 == 0)).2.1.mpr (by decide)
  refine ⟨hok, ?_, ?_⟩
  · exact (none_correct [1, 3, 5, 7, 0] (fun x => x % 2 == 0)).2.2 4
      (by decide) (by decide) (by decide)
  · exact (none_correct [1, 3, 5, 7] (fun x => x % 2 == 0)).1.mp hok

/-- Lemma: the exactly_one loop, entered with at most one match already
seen, succeeds exactly when the prior and remaining matches sum to one. -/
theorem exactlyOneLoop_ok_iff (pred : α → Bool) (xs : List α) :
    ∀ (matched i : Nat), matched ≤ 1 →
    (exactlyOneLoop pred matched i xs = .ok () ↔
      matched + xs.countP pred = 1) := by
  induction xs with
  | nil =>
    intro matched i _
    by_cases hm : matched = 1 <;> simp [exactlyOneLoop, hm]
  | cons x rest ih =>
    intro matched i hm
    by_cases hp : pred x
    · by_cases h1 : matched + 1 > 1
      · have hm1 : matched = 1 := by omega
        subst hm1
        simp [exactlyOneLoop, hp, List.countP_cons]
      · have hm0 : matched = 0 := by omega
        subst hm0
        simp only [exactlyOneLoop, hp, if_true, Nat.zero_add]
        rw [if_neg (by omega)]
        rw [ih 1 (i + 1) (by omega)]
        simp [List.countP_cons, hp]
    · simp only [exactlyOneLoop, hp, Bool.false_eq_true, if_false]
      rw [ih matched (i + 1) hm]
      simp [List.countP_cons, hp]

/-- Lemma: when the element at relative position k is a match and the
matches seen before it (prior count plus matches in the prefix) total
exactly one, the exactly_one loop errs with UnexpectedMatch at i + k. -/
theorem exactlyOneLoop_second_match (pred : α → Bool) (xs : List α) :
    ∀ (matched i k : Nat) (hk : k < xs.length), pred (xs.get ⟨k, hk⟩) = true →
    matched + (xs.take k).countP pred = 1 →
    exactlyOneLoop pred matched i xs =
      .error (.UnexpectedMatch .ExactlyOne (i + k)) := by
  induction xs with
  | nil => intro matched i k hk; exact absurd hk (by simp)
  | cons x rest ih =>
    intro matched i k hk hmatch hsum
    cases k with
    | zero =>
      simp only [List.take_zero, List.countP_nil, Nat.add_zero] at hsum
      subst hsum
      simp only [List.get] at hmatch
      simp [exactlyOneLoop, hmatch]
    | succ k =>
      rw [List.take_succ_cons, List.countP_cons] at hsum
      simp only [List.get] at hmatch
      by_cases hp : pred x
      · rw [if_pos hp] at hsum
        have hm0 : matched = 0 := by omega
        subst hm0
        simp only [exactlyOneLoop, hp, if_true, Nat.zero_add]
        rw [show i + (k + 1) = i + 1 + k by omega]
        exact ih 1 (i + 1) k (by simpa using hk) hmatch (by omega)
      · rw [if_neg hp] at hsum
        simp only [exactlyOneLoop, hp, if_false]
        rw [show i + (k + 1) = i + 1 + k by omega]
        exact ih matched (i + 1) k (by simpa using hk) hmatch (by omega)

/-- Lemma: when no element matches, the exactly_one loop entered with no
prior match errs with PredicateFailed at index 0. -/
theorem exactlyOneLoop_zero_match (pred : α → Bool) (xs : List α) :
    ∀ (i : Nat), xs.countP pred = 0 →
    exactlyOneLoop pred 0 i xs = .error (.PredicateFailed .ExactlyOne 0) := by
  induction xs with
  | nil => intro i _; simp [exactlyOneLoop]
  | cons x rest ih =>
    intro i hc
    rw [List.countP_cons] at hc
    by_cases hp : pred x
    · rw [if_pos hp] at hc; omega
    · rw [if_neg hp] at hc
      simp only [exactlyOneLoop, hp, if_false]
      exact ih (i + 1) (by omega)

/-- C2: exactly_one errs with EmptyInput on the empty sequence; on a
non-empty sequence it succeeds iff exactly one element matches; it errs
with UnexpectedMatch at the position of the second match when two or more
elements match, and with PredicateFailed at index 0 when none match. -/
theorem exactly_one_correct (xs : List α) (pred : α → Bool) :
    (xs = [] → exactly_one xs pred = .error (.EmptyInput .ExactlyOne)) ∧
    (xs ≠ [] → (exactly_one xs pred = .ok () ↔ xs.countP pred = 1)) ∧
    (∀ (k : Nat) (hk : k < xs.length), pred (xs.get ⟨k, hk⟩) = true →
      (xs.take k).countP pred = 1 →
      exactly_one xs pred = .error (.UnexpectedMatch .ExactlyOne k)) ∧
    (xs ≠ [] → xs.countP pred = 0 →
      exactly_one xs pred = .error (.PredicateFailed .ExactlyOne 0)) := by
  cases xs with
  | nil =>
    refine ⟨fun _ => rfl, fun h => absurd rfl h, ?_, fun h => absurd rfl h⟩
    intro k hk
    exact absurd hk (by simp)
  | cons x rest =>
    refine ⟨?_, ?_, ?_, ?_⟩
    · intro h
      cases h
    · intro _
      have h := exactlyOneLoop_ok_iff pred (x :: rest) 0 0 (by omega)
      simpa [exactly_one] using h
    · intro k hk hmatch hsum
      have h := exactlyOneLoop_second_match pred (x :: rest) 0 0 k hk hmatch
        (by simpa using hsum)
      simpa [exactly_one] using h
    · intro _ hc
      have h := exactlyOneLoop_zero_match pred (x :: rest) 0 hc
      simpa [exactly_one] using h

/-- Witness for C2 at concrete inputs exercising all four branches. -/
theorem exactly_one_correct_witness :
    exactly_one ([] : List Nat) (fun x => x % 2 == 0) =
      .error (.EmptyInput .ExactlyOne) ∧
    exactly_one [0, 1, 3, 5] (fun x => x % 2 == 0) = .ok () ∧
    exactly_one [0, 1, 3, 5, 6] (fun x => x % 2 == 0) =
      .error (.UnexpectedMatch .ExactlyOne 4) ∧
    exactly_one [1, 3, 5] (fun x => x % 2 == 0) =
      .error (.PredicateFailed .ExactlyOne 0) := by
  refine ⟨(exactly_one_correct _ _).1 rfl, ?_, ?_, ?_⟩
  · exact ((exactly_one_correct [0, 1, 3, 5] (fun x => x % 2 == 0)).2.1
      (by decide)).mpr (by decide)
  · exact (exactly_one_correct [0, 1, 3, 5, 6] (fun x => x % 2 == 0)).2.2.1 4
      (by decide) (by decide) (by decide)
  · exact (exactly_one_correct [1, 3, 5] (fun x => x % 2 == 0)).2.2.2
      (by decide) (by decide)

/-- C3: the claim fails on the code.  The descriptors produced by
exactly_one store kind ExactlyOne, but the kind inspection method of
error.rs returns a hardcoded kind for every variant except EmptyInput, so
the UnexpectedMatch and PredicateFailed descriptors of exactly_one report
kinds None and Forall respectively, not ExactlyOne, contradicting the
method's own documentation that it names the quantifier that produced the
error. -/
theorem exactly_one_kind_bug :
    exactly_one [1, 2] (fun _ => true) =
      .error (.UnexpectedMatch .ExactlyOne 1) ∧
    QuantorError.kind (.UnexpectedMatch .ExactlyOne 1) = QuantorKind.None ∧
    QuantorError.kind (.PredicateFailed .ExactlyOne 0) = QuantorKind.Forall ∧
    QuantorKind.None ≠ QuantorKind.ExactlyOne ∧
    QuantorError.kind (.EmptyInput .ExactlyOne) = QuantorKind.ExactlyOne := by
  refine ⟨?_, ?_, ?_, ?_, ?_⟩
  · rfl
  · rfl
  · rfl
  · intro h
    exact QuantorKind.noConfusion h
  · rfl

/-- C4: exactly_n succeeds iff the number of matching elements equals n;
otherwise it errs with ExactlyNFailed whose found field is the exact
cardinality of matches (no short-circuit) and whose expected field is n,
and match_count on that result yields found. -/
theorem exactly_n_correct (xs : List α) (n : Nat) (pred : α → Bool) :
    (exactly_n xs n pred = .ok () ↔ xs.countP pred = n) ∧
    (xs.countP pred ≠ n →
      exactly_n xs n pred =
        .error (.ExactlyNFailed .ExactlyN (xs.countP pred) n) ∧
      match_count (exactly_n xs n pred) = Option.some (xs.countP pred)) := by
  have hfc : xs.countP pred = (xs.filter pred).length :=
    List.countP_eq_length_filter pred xs
  by_cases h : (xs.filter pred).length = n
  · constructor
    · simp [exactly_n, h, hfc]
    · intro hne
      exact absurd (hfc.trans h) hne
  · constructor
    · simp [exactly_n, h, hfc]
    · intro _
      constructor
      · simp [exactly_n, h, hfc]
      · simp [exactly_n, match_count, h, hfc]

/-- Witness for C4 at concrete inputs: the found field is the full match
count 3 even though it exceeds the expected count 2. -/
theorem exactly_n_correct_witness :
    exactly_n [2, 4, 6] 2 (fun x => x % 2 == 0) =
      .error (.ExactlyNFailed .ExactlyN 3 2) ∧
    match_count (exactly_n [2, 4, 6] 2 (fun x => x % 2 == 0)) =
      Option.some 3 ∧
    exactly_n [1, 2, 4, 6] 3 (fun x => x % 2 == 0) = .ok () := by
  have h := (exactly_n_correct [2, 4, 6] 2 (fun x => x % 2 == 0)).2 (by decide)
  refine ⟨?_, ?_, ?_⟩
  · simpa using h.1
  · simpa using h.2
  · exact (exactly_n_correct [1, 2, 4, 6] 3 (fun x => x % 2 == 0)).1.mpr
      (by decide)

/-- Lemma: the all_equal loop over the tail succeeds exactly when every
remaining element equals the reference. -/
theorem allEqualLoop_ok_iff [DecidableEq α] (first : α) (i : Nat) (xs : List α) :
    allEqualLoop first i xs = .ok () ↔ ∀ x ∈ xs, x = first := by
  induction xs generalizing i with
  | nil => simp [allEqualLoop]
  | cons x rest ih =>
    by_cases h : x = first
    · simp [allEqualLoop, h, ih]
    · simp [allEqualLoop, h]

/-- Lemma: when the element at relative position k of the tail is the
first one differing from the reference, the all_equal loop started at
index i errs with stored index i + k + 1. -/
theorem allEqualLoop_first_diff [DecidableEq α] (first : α) (xs : List α) :
    ∀ (i k : Nat) (hk : k < xs.length), xs.get ⟨k, hk⟩ ≠ first →
    (∀ x ∈ xs.take k, x = first) →
    allEqualLoop first i xs = .error (.NotAllEqual .AllEqual (i + k + 1)) := by
  induction xs with
  | nil => intro i k hk; exact absurd hk (by simp)
  | cons x rest ih =>
    intro i k hk hdiff hbefore
    cases k with
    | zero =>
      simp only [List.get] at hdiff
      simp [allEqualLoop, hdiff]
    | succ k =>
      have hx : x = first := hbefore x (by simp [List.take_succ_cons])
      have hrec := ih (i + 1) k (by simpa using hk) (by simpa using hdiff)
        (fun y hy => hbefore y (by simp [List.take_succ_cons, hy]))
      have hstep : allEqualLoop first i (x :: rest) =
          allEqualLoop first (i + 1) rest := by
        simp [allEqualLoop, hx]
      rw [hstep, show i + (k + 1) + 1 = i + 1 + k + 1 by omega]
      exact hrec

/-- C8: all_equal succeeds iff all elements are pairwise equal (vacuously
on the empty sequence); when it fails, the NotAllEqual index is the
position, in the full sequence, of the first element not equal to the
head, hence at least 1. -/
theorem all_equal_correct [DecidableEq α] (xs : List α) :
    (all_equal xs = .ok () ↔ ∀ x ∈ xs, ∀ y ∈ xs, x = y) ∧
    (∀ (k : Nat) (hk : k < xs.length) (h0 : 0 < xs.length),
      xs.get ⟨k, hk⟩ ≠ xs.get ⟨0, h0⟩ →
      (∀ x ∈ xs.take k, x = xs.get ⟨0, h0⟩) →
      all_equal xs = .error (.NotAllEqual .AllEqual k) ∧ 1 ≤ k) := by
  cases xs with
  | nil =>
    constructor
    · simp [all_equal]
    · intro k hk
      exact absurd hk (by simp)
  | cons x0 rest =>
    constructor
    · have hloop := allEqualLoop_ok_iff x0 0 rest
      constructor
      · intro h x hx y hy
        have hall : ∀ z ∈ rest, z = x0 := hloop.mp h
        have hx0 : x = x0 := by
          rcases List.mem_cons.mp hx with h1 | h1
          · exact h1
          · exact hall x h1
        have hy0 : y = x0 := by
          rcases List.mem_cons.mp hy with h1 | h1
          · exact h1
          · exact hall y h1
        rw [hx0, hy0]
      · intro h
        refine hloop.mpr (fun z hz => ?_)
        exact h z (List.mem_cons_of_mem x0 hz) x0 (List.mem_cons_self x0 rest)
    · intro k hk h0 hdiff hbefore
      cases k with
      | zero => exact absurd rfl hdiff
      | succ k =>
        refine ⟨?_, by omega⟩
        have hdiff' : rest.get ⟨k, by simpa using hk⟩ ≠ x0 := by
          simpa using hdiff
        have hbefore' : ∀ x ∈ rest.take k, x = x0 := by
          intro y hy
          exact hbefore y (by simp [List.take_succ_cons, hy])
        have h := allEqualLoop_first_diff x0 rest 0 k (by simpa using hk)
          hdiff' hbefore'
        simpa [all_equal] using h

/-- Witness for C8 at concrete inputs: three equal elements succeed; the
first differing element of a strictly increasing sequence is at
position 1. -/
theorem all_equal_correct_witness :
    all_equal ([1, 1, 1] : List Nat) = .ok () ∧
    all_equal ([1, 2, 3] : List Nat) = .error (.NotAllEqual .AllEqual 1) := by
  constructor
  · exact (all_equal_correct [1, 1, 1]).1.mpr (by decide)
  · exact ((all_equal_correct [1, 2, 3]).2 1 (by decide) (by decide)
      (by decide) (by decide)).1

/-- Lemma: the pairwise loop succeeds exactly when the predicate chains
from the carried previous element through the remaining tail. -/
theorem pairwiseLoop_ok_iff (pred : α → α → Bool) (xs : List α) :
    ∀ (prev : α) (i : Nat),
    pairwiseLoop pred prev i xs = .ok () ↔
      List.Chain (fun a b => pred a b = true) prev xs := by
  induction xs with
  | nil => intro prev i; simp [pairwiseLoop]
  | cons x rest ih =>
    intro prev i
    by_cases h : pred prev x
    · simp [pairwiseLoop, h, ih]
    · simp [pairwiseLoop, h]

/-- Lemma: pairwise succeeds exactly when the predicate holds along the
whole sequence of adjacent pairs. -/
theorem pairwise_ok_iff_chain (xs : List α) (pred : α → α → Bool) :
    pairwise xs pred = .ok () ↔
      List.Chain' (fun a b => pred a b = true) xs := by
  cases xs with
  | nil => simp [pairwise]
  | cons x rest => exact pairwiseLoop_ok_iff pred rest x 0

/-- Lemma: when pair k of the loop (carried previous element consed onto
the remaining tail) is the first failing one, the loop started at index i
errs with index i + k. -/
theorem pairwiseLoop_first_fail (pred : α → α → Bool) (xs : List α) :
    ∀ (prev : α) (i k : Nat) (hk : k < xs.length),
    pred ((prev :: xs).get ⟨k, by simp; omega⟩) (xs.get ⟨k, hk⟩) = false →
    (∀ (j : Nat) (hj : j < xs.length), j < k →
      pred ((prev :: xs).get ⟨j, by simp; omega⟩) (xs.get ⟨j, hj⟩) = true) →
    pairwiseLoop pred prev i xs =
      .error (.PairwiseFailed .Pairwise (i + k)) := by
  induction xs with
  | nil => intro prev i k hk; exact absurd hk (by simp)
  | cons x rest ih =>
    intro prev i k hk hfail hbefore
    cases k with
    | zero =>
      simp only [List.get] at hfail
      simp [pairwiseLoop, hfail]
    | succ k =>
      have hx : pred prev x = true := by
        have h := hbefore 0 (by simp) (by omega)
        simpa [List.get] using h
      have hrec := ih x (i + 1) k (by simpa using hk)
        (by simpa [List.get] using hfail)
        (fun j hj hlt => by
          have h := hbefore (j + 1) (by simpa using hj) (by omega)
          simpa [List.get] using h)
      simp only [pairwiseLoop, hx, Bool.not_true, Bool.false_eq_true, if_false]
      rw [show i + (k + 1) = i + 1 + k by omega]
      exact hrec

/-- C5: pairwise succeeds iff the predicate holds for every adjacent pair
of the sequence (vacuously for empty and singleton sequences); on the
first failing pair it errs with PairwiseFailed carrying the failing
pair's second element's position minus one. -/
theorem pairwise_correct (xs : List α) (pred : α → α → Bool) :
    (pairwise xs pred = .ok () ↔
      ∀ (k : Nat) (hk : k + 1 < xs.length),
        pred (xs.get ⟨k, by omega⟩) (xs.get ⟨k + 1, hk⟩) = true) ∧
    (∀ (k : Nat) (hk : k + 1 < xs.length),
      pred (xs.get ⟨k, by omega⟩) (xs.get ⟨k + 1, hk⟩) = false →
      (∀ (j : Nat) (hj : j + 1 < xs.length), j < k →
        pred (xs.get ⟨j, by omega⟩) (xs.get ⟨j + 1, hj⟩) = true) →
      pairwise xs pred = .error (.PairwiseFailed .Pairwise k)) := by
  constructor
  · rw [pairwise_ok_iff_chain, List.chain'_iff_get]
    constructor
    · intro h k hk
      exact h k (by omega)
    · intro h k hk
      exact h k (by omega)
  · intro k hk hfail hbefore
    cases xs with
    | nil => exact absurd hk (by simp)
    | cons x rest =>
      have hk' : k < rest.length := by simpa using hk
      have h := pairwiseLoop_first_fail pred rest x 0 k hk' hfail
        (fun j hj hlt => hbefore j (by simpa using hj) hlt)
      simpa [pairwise] using h

/-- Witness for C5 at concrete inputs: the spec's end-to-end scenario,
where the failing pair (2, 2) has its second element at position 2 and
the stored index is 1, plus a strictly increasing success. -/
theorem pairwise_correct_witness :
    pairwise ([1, 2, 2, 3] : List Nat) (fun a b => decide (a < b)) =
      .error (.PairwiseFailed .Pairwise 1) ∧
    pairwise ([0, 1, 2, 3] : List Nat) (fun a b => decide (a < b)) =
      .ok () := by
  constructor
  · exact (pairwise_correct [1, 2, 2, 3] (fun a b => decide (a < b))).2 1
      (by decide) (by decide)
      (by
        intro j hj hlt
        have hj0 : j = 0 := by omega
        subst hj0
        rfl)
  · exact (pairwise_correct [0, 1, 2, 3] (fun a b => decide (a < b))).1.mpr
      (by
        intro k hk
        have hk4 : k + 1 < 4 := by simpa using hk
        have hk3 : k < 3 := by omega
        interval_cases k <;> rfl)

/-- Lemma: the inner existential scan yields true exactly when some
right-hand element is a partner. -/
theorem existsInner_eq_true_iff (pred : α → β → Bool) (a : α) (bs : List β) :
    existsInner pred a bs = true ↔ ∃ b ∈ bs, pred a b = true := by
  induction bs with
  | nil => simp [existsInner]
  | cons b rest ih =>
    by_cases h : pred a b
    · simp [existsInner, h]
    · simp [existsInner, h, ih]

/-- Lemma: the forallexists outer loop succeeds exactly when every
remaining left element has a partner. -/
theorem forallexistsLoop_ok_iff (pred : α → β → Bool) (bs : List β) (xs : List α) :
    ∀ (i : Nat), forallexistsLoop pred bs i xs = .ok () ↔
      ∀ a ∈ xs, ∃ b ∈ bs, pred a b = true := by
  induction xs with
  | nil => intro i; simp [forallexistsLoop]
  | cons a rest ih =>
    intro i
    by_cases h : existsInner pred a bs
    · have h' := (existsInner_eq_true_iff pred a bs).mp h
      simp [forallexistsLoop, h, ih, h']
    · have h' : ¬ ∃ b ∈ bs, pred a b = true := by
        rw [← existsInner_eq_true_iff pred a bs]
        simpa using h
      simp [forallexistsLoop, h, h']

/-- Lemma: when the left element at relative position k is the first one
without a partner, the forallexists outer loop started at index i errs
with outer index i + k. -/
theorem forallexistsLoop_first_fail (pred : α → β → Bool) (bs : List β)
    (xs : List α) :
    ∀ (i k : Nat) (hk : k < xs.length),
    (∀ b ∈ bs, pred (xs.get ⟨k, hk⟩) b = false) →
    (∀ a ∈ xs.take k, ∃ b ∈ bs, pred a b = true) →
    forallexistsLoop pred bs i xs =
      .error (.ForAllExistsFailed .ForAllExists (i + k)) := by
  induction xs with
  | nil => intro i k hk; exact absurd hk (by simp)
  | cons a rest ih =>
    intro i k hk hnop hbefore
    cases k with
    | zero =>
      simp only [List.get] at hnop
      have h : ¬ existsInner pred a bs = true := by
        rw [existsInner_eq_true_iff]
        rintro ⟨b, hb, hpb⟩
        rw [hnop b hb] at hpb
        cases hpb
      simp [forallexistsLoop, h]
    | succ k =>
      have ha : existsInner pred a bs = true := by
        rw [existsInner_eq_true_iff]
        exact hbefore a (by simp [List.take_succ_cons])
      have hrec := ih (i + 1) k (by simpa using hk) (by simpa using hnop)
        (fun y hy => hbefore y (by simp [List.take_succ_cons, hy]))
      simp only [forallexistsLoop, ha, if_true]
      rw [show i + (k + 1) = i + 1 + k by omega]
      exact hrec

/-- C6: forallexists succeeds iff every left element has a partner in the
right sequence (vacuously when the left sequence is empty); an empty
right sequence with a non-empty left one always errs at outer index 0;
on failure the outer index is the position of the first left element
without a partner. -/
theorem forallexists_correct (xs : List α) (bs : List β) (pred : α → β → Bool) :
    (forallexists xs bs pred = .ok () ↔
      ∀ a ∈ xs, ∃ b ∈ bs, pred a b = true) ∧
    (bs = [] → xs ≠ [] →
      forallexists xs bs pred =
        .error (.ForAllExistsFailed .ForAllExists 0)) ∧
    (∀ (k : Nat) (hk : k < xs.length),
      (∀ b ∈ bs, pred (xs.get ⟨k, hk⟩) b = false) →
      (∀ a ∈ xs.take k, ∃ b ∈ bs, pred a b = true) →
      forallexists xs bs pred =
        .error (.ForAllExistsFailed .ForAllExists k)) := by
  refine ⟨forallexistsLoop_ok_iff pred bs xs 0, ?_, ?_⟩
  · rintro rfl hne
    cases xs with
    | nil => exact absurd rfl hne
    | cons a rest =>
      have h := forallexistsLoop_first_fail pred [] (a :: rest) 0 0
        (by simp) (by simp) (by simp)
      simpa [forallexists] using h
  · intro k hk hnop hbefore
    have h := forallexistsLoop_first_fail pred bs xs 0 k hk hnop hbefore
    simpa [forallexists] using h

/-- Witness for C6 at concrete inputs: the spec's success scenario, a
failure at outer index 0, and the empty right-hand failure. -/
theorem forallexists_correct_witness :
    forallexists ([1, 2] : List Nat) ([3, 4, 5] : List Nat)
      (fun x y => decide (x < y)) = .ok () ∧
    forallexists ([10, 20] : List Nat) ([2, 3, 4] : List Nat)
      (fun x y => decide (x < y)) =
      .error (.ForAllExistsFailed .ForAllExists 0) ∧
    forallexists ([1] : List Nat) ([] : List Nat)
      (fun x y => decide (x < y)) =
      .error (.ForAllExistsFailed .ForAllExists 0) := by
  refine ⟨?_, ?_, ?_⟩
  · exact (forallexists_correct [1, 2] [3, 4, 5]
      (fun x y => decide (x < y))).1.mpr (by decide)
  · exact (forallexists_correct [10, 20] [2, 3, 4]
      (fun x y => decide (x < y))).2.2 0 (by decide) (by decide) (by decide)
  · exact (forallexists_correct [1] []
      (fun x y => decide (x < y))).2.1 rfl (by decide)

/-- Lemma: the inner universal scan yields true exactly when every
right-hand element satisfies the predicate. -/
theorem forallInner_eq_true_iff (pred : α → β → Bool) (a : α) (bs : List β) :
    forallInner pred a bs = true ↔ ∀ b ∈ bs, pred a b = true := by
  induction bs with
  | nil => simp [forallInner]
  | cons b rest ih =>
    by_cases h : pred a b
    · simp [forallInner, h, ih]
    · simp [forallInner, h]

/-- Lemma: the existsforall outer loop succeeds exactly when some
remaining left element satisfies the predicate against every right-hand
element, whatever index state it carries. -/
theorem existsforallLoop_ok_iff (pred : α → β → Bool) (bs : List β)
    (xs : List α) :
    ∀ (fi : Option Nat) (i : Nat),
    existsforallLoop pred bs fi i xs = .ok () ↔
      ∃ a ∈ xs, ∀ b ∈ bs, pred a b = true := by
  induction xs with
  | nil => intro fi i; simp [existsforallLoop]
  | cons a rest ih =>
    intro fi i
    by_cases h : forallInner pred a bs
    · have h' := (forallInner_eq_true_iff pred a bs).mp h
      simp [existsforallLoop, h]
      exact Or.inl h'
    · have h' : ¬ ∀ b ∈ bs, pred a b = true := by
        rw [← forallInner_eq_true_iff pred a bs]
        simpa using h
      cases fi with
      | none => simp [existsforallLoop, h, ih, h']
      | some j => simp [existsforallLoop, h, ih, h']

/-- Lemma: once the first failing index is recorded as j, any error the
existsforall outer loop produces carries exactly that index. -/
theorem existsforallLoop_error_some (pred : α → β → Bool) (bs : List β)
    (xs : List α) :
    ∀ (j i : Nat) (e : QuantorError),
    existsforallLoop pred bs (Option.some j) i xs = .error e →
    e = .ExistsForAllFailed .ExistsForAll j := by
  induction xs with
  | nil =>
    intro j i e h
    simp only [existsforallLoop, Option.getD_some] at h
    exact (Except.error.inj h).symm
  | cons a rest ih =>
    intro j i e h
    by_cases hf : forallInner pred a bs
    · simp [existsforallLoop, hf] at h
    · simp only [existsforallLoop, hf, Bool.false_eq_true, if_false] at h
      exact ih j (i + 1) e h

/-- Lemma: any error existsforall produces carries outer index 0. -/
theorem existsforall_error (xs : List α) (bs : List β) (pred : α → β → Bool) :
    ∀ (e : QuantorError), existsforall xs bs pred = .error e →
    e = .ExistsForAllFailed .ExistsForAll 0 := by
  intro e h
  cases xs with
  | nil =>
    simp only [existsforall, existsforallLoop, Option.getD_none] at h
    exact (Except.error.inj h).symm
  | cons a rest =>
    by_cases hf : forallInner pred a bs
    · simp [existsforall, existsforallLoop, hf] at h
    · simp only [existsforall, existsforallLoop, hf, Bool.false_eq_true,
        if_false] at h
      exact existsforallLoop_error_some pred bs rest 0 1 e h

/-- C7: existsforall succeeds iff some left element satisfies the
predicate against every right-hand element (so an empty right sequence
succeeds whenever the left one is non-empty); whenever it fails,
including on an empty left sequence, the descriptor is ExistsForAllFailed
with outer index 0, and failing_index on that result yields nothing. -/
theorem existsforall_correct (xs : List α) (bs : List β)
    (pred : α → β → Bool) :
    (existsforall xs bs pred = .ok () ↔
      ∃ a ∈ xs, ∀ b ∈ bs, pred a b = true) ∧
    (bs = [] → xs ≠ [] → existsforall xs bs pred = .ok ()) ∧
    (∀ (e : QuantorError), existsforall xs bs pred = .error e →
      e = .ExistsForAllFailed .ExistsForAll 0 ∧
      failing_index (existsforall xs bs pred) = Option.none) := by
  have hok := existsforallLoop_ok_iff pred bs xs Option.none 0
  refine ⟨hok, ?_, ?_⟩
  · rintro rfl hne
    cases xs with
    | nil => exact absurd rfl hne
    | cons a rest => exact hok.mpr ⟨a, by simp, by simp⟩
  · intro e he
    have h1 := existsforall_error xs bs pred e he
    refine ⟨h1, ?_⟩
    rw [he, h1]
    rfl

/-- Witness for C7 at concrete inputs: the spec's success scenario, a
failure carrying outer index 0 with no failing index, and the empty
right-hand success. -/
theorem existsforall_correct_witness :
    existsforall ([5, 10] : List Nat) ([1, 2] : List Nat)
      (fun x y => decide (y < x)) = .ok () ∧
    QuantorError.ExistsForAllFailed .ExistsForAll 0 =
      .ExistsForAllFailed .ExistsForAll 0 ∧
    failing_index (existsforall ([0, 1] : List Nat) ([1, 2] : List Nat)
      (fun x y => decide (y < x))) = Option.none ∧
    existsforall ([7] : List Nat) ([] : List Nat)
      (fun x y => decide (y < x)) = .ok () := by
  have herr : existsforall ([0, 1] : List Nat) ([1, 2] : List Nat)
      (fun x y => decide (y < x)) =
      .error (.ExistsForAllFailed .ExistsForAll 0) := rfl
  have h := (existsforall_correct [0, 1] [1, 2]
    (fun x y => decide (y < x))).2.2 (.ExistsForAllFailed .ExistsForAll 0) herr
  refine ⟨?_, h.1, h.2, ?_⟩
  · exact (existsforall_correct [5, 10] [1, 2]
      (fun x y => decide (y < x))).1.mpr (by decide)
  · exact (existsforall_correct [7] []
      (fun x y => decide (y < x))).2.1 rfl (by decide)

/-- Lemma: the select_unique loop equals the accumulated result followed
by first-kept deduplication of the filtered remainder, threading the same
seen set. -/
theorem selectUniqueLoop_eq [DecidableEq α] (pred : α → Bool) (xs : List α) :
    ∀ (uniques result : List α),
    selectUniqueLoop pred uniques result xs =
      result ++ dedupKeepFirstAux uniques (xs.filter pred) := by
  induction xs with
  | nil => intro uniques result; simp [selectUniqueLoop, dedupKeepFirstAux]
  | cons x rest ih =>
    intro uniques result
    by_cases hp : pred x
    · rw [List.filter_cons_of_pos hp]
      by_cases hm : x ∈ uniques
      · simp only [selectUniqueLoop, hp, if_true, hm, dedupKeepFirstAux]
        exact ih uniques result
      · simp only [selectUniqueLoop, hp, if_true, hm, if_false,
          dedupKeepFirstAux]
        rw [ih (x :: uniques) (result ++ [x])]
        simp
    · rw [List.filter_cons_of_neg hp]
      simp only [selectUniqueLoop, hp, Bool.false_eq_true, if_false]
      exact ih uniques result

/-- Lemma: first-kept deduplication yields a sublist of its input, for
any seen set. -/
theorem dedupKeepFirstAux_sublist [DecidableEq α] (xs : List α) :
    ∀ (seen : List α), List.Sublist (dedupKeepFirstAux seen xs) xs := by
  induction xs with
  | nil => intro seen; simp [dedupKeepFirstAux]
  | cons x rest ih =>
    intro seen
    by_cases hm : x ∈ seen
    · simp only [dedupKeepFirstAux, hm, if_true]
      exact List.Sublist.cons x (ih seen)
    · simp only [dedupKeepFirstAux, hm, if_false]
      exact List.Sublist.cons₂ x (ih (x :: seen))

/-- Lemma: no element of a first-kept deduplication lies in the seen set
it was built from. -/
theorem dedupKeepFirstAux_not_mem_seen [DecidableEq α] (xs : List α) :
    ∀ (seen : List α) (x : α), x ∈ dedupKeepFirstAux seen xs → x ∉ seen := by
  induction xs with
  | nil => intro seen x h; simp [dedupKeepFirstAux] at h
  | cons y rest ih =>
    intro seen x h
    by_cases hm : y ∈ seen
    · rw [dedupKeepFirstAux, if_pos hm] at h
      exact ih seen x h
    · rw [dedupKeepFirstAux, if_neg hm] at h
      rcases List.mem_cons.mp h with h1 | h1
      · subst h1
        exact hm
      · intro hx
        exact ih (y :: seen) x h1 (List.mem_cons_of_mem y hx)

/-- Lemma: first-kept deduplication contains no duplicates, for any seen
set. -/
theorem dedupKeepFirstAux_nodup [DecidableEq α] (xs : List α) :
    ∀ (seen : List α), (dedupKeepFirstAux seen xs).Nodup := by
  induction xs with
  | nil => intro seen; simp [dedupKeepFirstAux]
  | cons y rest ih =>
    intro seen
    by_cases hm : y ∈ seen
    · simp only [dedupKeepFirstAux, hm, if_true]
      exact ih seen
    · simp only [dedupKeepFirstAux, hm, if_false]
      rw [List.nodup_cons]
      refine ⟨?_, ih (y :: seen)⟩
      intro hy
      exact dedupKeepFirstAux_not_mem_seen rest (y :: seen) y hy
        (List.mem_cons_self y seen)

/-- C10: select_unique equals select_where with every later duplicate of
an already-seen value removed, first occurrences kept; its output is a
sublist of select_where's output in the same order and contains no two
equal elements. -/
theorem select_unique_correct [DecidableEq α] (xs : List α) (pred : α → Bool) :
    select_unique xs pred = dedupKeepFirst (select_where xs pred) ∧
    List.Sublist (select_unique xs pred) (select_where xs pred) ∧
    (select_unique xs pred).Nodup := by
  have heq : select_unique xs pred = dedupKeepFirst (select_where xs pred) := by
    unfold select_unique dedupKeepFirst select_where
    simpa using selectUniqueLoop_eq pred xs [] []
  refine ⟨heq, ?_, ?_⟩
  · rw [heq]
    exact dedupKeepFirstAux_sublist (select_where xs pred) []
  · rw [heq]
    exact dedupKeepFirstAux_nodup (select_where xs pred) []

/-- Witness for C10 at a concrete input with a duplicate matching value:
only the first occurrence of 2 is kept. -/
theorem select_unique_correct_witness :
    select_unique ([0, 1, 2, 2, 3] : List Nat) (fun x => x % 2 == 0) =
      dedupKeepFirst (select_where [0, 1, 2, 2, 3] (fun x => x % 2 == 0)) ∧
    select_unique ([0, 1, 2, 2, 3] : List Nat) (fun x => x % 2 == 0) =
      [0, 2] ∧
    select_where ([0, 1, 2, 2, 3] : List Nat) (fun x => x % 2 == 0) =
      [0, 2, 2] :=
  ⟨(select_unique_correct [0, 1, 2, 2, 3] (fun x => x % 2 == 0)).1, rfl, rfl⟩

end Quantor
